import Mathlib

/-!
Verification of the autopi-core event reactor engine
(`src/salt/base/ext/_engines/event_reactor.py`).

The engine registers pattern-matching rules ("mappings") for events, and on a
matching event optionally evaluates a condition expression and dispatches a
list of action messages, optionally keyword-resolving each action against the
event.  A process-wide `context` store supports key-partitioned merge updates
through `context_handler`.

Python values carried by events, templates and the context store are modelled
by the inductive type `Value`; Python dicts by insertion-ordered association
lists (`AList`).  The external `keyword_resolve` function from the messaging
layer (a collaborator, not part of the engine) is a parameter of type
`Resolver`; it may raise, modelled by `Except`.  The dispatch sink
(`edmp.process`) is modelled as collecting the forwarded messages in order.
-/

set_option autoImplicit false

namespace EventReactor

/-- Model of a Python value as it appears in events, action message templates
and the context store: `none` is Python `None`; dicts are insertion-ordered
association lists. -/
inductive Value where
  | none : Value
  | bool : Bool → Value
  | int : Int → Value
  | str : String → Value
  | list : List Value → Value
  | dict : List (String × Value) → Value

/-- Python truthiness (`if value:`) for the modelled values: `None`, `False`,
`0`, `""`, `[]` and `{}` are falsy, everything else truthy. -/
def truthy : Value → Bool
  | Value.none => false
  | Value.bool b => b
  | Value.int n => n != 0
  | Value.str s => s != ""
  | Value.list [] => false
  | Value.list (_ :: _) => true
  | Value.dict [] => false
  | Value.dict (_ :: _) => true

/-- Insertion-ordered association list, the model of a Python dict. -/
abbrev AList (α : Type) := List (String × α)

/-- Python `d[k]` lookup (first binding wins; a dict has unique keys). -/
def alLookup {α : Type} : AList α → String → Option α
  | [], _ => Option.none
  | (k', v) :: t, k => if k' = k then some v else alLookup t k

/-- Python `k in d`. -/
def alMem {α : Type} : AList α → String → Bool
  | [], _ => false
  | (k', _) :: t, k => k' = k || alMem t k

/-- Python `d[k] = v`: replace in place when the key is present, append
otherwise (insertion order preserved). -/
def alSet {α : Type} : AList α → String → α → AList α
  | [], k, v => [(k, v)]
  | (k', v') :: t, k, v =>
      if k' = k then (k, v) :: t else (k', v') :: alSet t k v

/-- A sub-mapping of the context store (string keys to values). -/
abbrev Dict := AList Value

/-- The context store: string key to sub-mapping. -/
abbrev Ctx := AList Dict

/-- Python `d.update(u)`: set each binding of `u` into `d`, in order. -/
def dictUpdate (d u : Dict) : Dict :=
  List.foldl (fun acc p => alSet acc p.1 p.2) d u

/-- The `context_handler` hook of the engine.  The Python code is

```
if key != None:
    if not key in context:
        context[key] = {}
    context[key].update(kwargs)
return context
```

State passing is explicit: the result is `(new store, returned value)`; the
hook returns the (updated) full store. -/
def context_handler (ctx : Ctx) (key : Option String) (kwargs : Dict) :
    Ctx × Ctx :=
  match key with
  | Option.none => (ctx, ctx)
  | some k =>
      let ctx1 := if alMem ctx k then ctx else alSet ctx k ([] : Dict)
      let ctx2 := alSet ctx1 k (dictUpdate ((alLookup ctx1 k).getD []) kwargs)
      (ctx2, ctx2)

/- ### Association-list lemmas -/

theorem alLookup_alSet_self {α : Type} (d : AList α) (k : String) (v : α) :
    alLookup (alSet d k v) k = some v := by
  induction d with
  | nil => simp [alSet, alLookup]
  | cons p t ih =>
      by_cases h : p.1 = k
      · simp [alSet, h, alLookup]
      · simp [alSet, h, alLookup, ih]

theorem alLookup_alSet_ne {α : Type} (d : AList α) (k k' : String) (v : α)
    (h : k' ≠ k) : alLookup (alSet d k v) k' = alLookup d k' := by
  have hk : k ≠ k' := Ne.symm h
  induction d with
  | nil => simp [alSet, alLookup, hk]
  | cons p t ih =>
      by_cases hp : p.1 = k
      · simp [alSet, hp, alLookup, hk]
      · simp [alSet, hp, alLookup, ih]

theorem alMem_lookup_isSome {α : Type} (d : AList α) (k : String) :
    alMem d k = (alLookup d k).isSome := by
  induction d with
  | nil => simp [alMem, alLookup]
  | cons p t ih =>
      by_cases h : p.1 = k
      · simp [alMem, alLookup, h]
      · simp [alMem, alLookup, h, ih]

theorem dictUpdate_lookup_notmem (u : Dict) (sk : String)
    (h : alMem u sk = false) :
    ∀ d : Dict, alLookup (dictUpdate d u) sk = alLookup d sk := by
  induction u with
  | nil => intro d; simp [dictUpdate]
  | cons p t ih =>
      intro d
      simp only [alMem, Bool.or_eq_false_iff] at h
      have h1 : p.1 ≠ sk := by
        intro hh
        simp [hh] at h
      have h2 : alMem t sk = false := h.2
      have hstep : dictUpdate d (p :: t) = dictUpdate (alSet d p.1 p.2) t := rfl
      rw [hstep, ih h2, alLookup_alSet_ne d p.1 sk p.2 (Ne.symm h1)]

/- ### The rule evaluator -/

/-- One configured rule mapping (a Python dict in the source).  The four
pattern fields model `"regex" in mapping` etc.; `condition` models
`mapping.get("condition", None)` (default `None`); `keyword_resolve` models
`mapping.get("keyword_resolve", False)`; `actions` is `mapping["actions"]`. -/
structure Mapping where
  regex : Option String := Option.none
  startswith : Option String := Option.none
  endswith : Option String := Option.none
  fnmatch : Option String := Option.none
  condition : Value := Value.none
  keyword_resolve : Bool := false
  actions : List Value := []

/-- The keyword namespace passed to `keyword_resolve`:
`keywords={"event": event, "match": match, "context": context}`. -/
structure Keywords where
  event : Value
  matchRes : Value
  context : Ctx

/-- The external `keyword_resolve` function of the messaging layer: given a
value (a condition or an action template) and the keyword namespace, either
returns the resolved value or raises. -/
abbrev Resolver := Value → Keywords → Except String Value

/-- `copy.deepcopy` at the level of immutable model values is the identity
(the copy is structurally equal to the original; the aliasing aspect of
deep copying is modelled separately by the heap model below). -/
def deepcopyValue (v : Value) : Value := v

/-- Outcome of the condition check at the top of `on_event`. -/
inductive CondOutcome where
  | proceed : CondOutcome
  | skip : CondOutcome
  | raised : String → CondOutcome

/-- The condition check of `on_event`:

```
condition = mapping.get("condition", None)
if condition:
    if keyword_resolve(condition, keywords=...):
        log.info(...)
    else:
        return
```

A falsy `condition` value (in particular an absent one, `None`) bypasses the
check.  An exception from `keyword_resolve` propagates (there is no handler
in the source). -/
def condPhase (kr : Resolver) (kw : Keywords) (mapping : Mapping) :
    CondOutcome :=
  if truthy mapping.condition then
    match kr mapping.condition kw with
    | Except.error e => CondOutcome.raised e
    | Except.ok r => if truthy r then CondOutcome.proceed else CondOutcome.skip
  else CondOutcome.proceed

/-- The action loop of `on_event`:

```
for message in mapping["actions"]:
    if mapping.get("keyword_resolve", False):
        resolved_message = keyword_resolve(copy.deepcopy(message), keywords=...)
        edmp.process(resolved_message)
    else:
        edmp.process(message)
```

The dispatch sink `edmp.process` is modelled as collecting the forwarded
messages in order (first component); the second component is the exception
escaping the loop, if any: when `keyword_resolve` raises on one message the
loop aborts, so later messages are not processed. -/
def processActions (kr : Resolver) (kw : Keywords) (kwres : Bool) :
    List Value → List Value × Option String
  | [] => ([], Option.none)
  | message :: rest =>
      if kwres then
        match kr (deepcopyValue message) kw with
        | Except.error e => ([], some e)
        | Except.ok resolved =>
            let r := processActions kr kw kwres rest
            (resolved :: r.1, r.2)
      else
        let r := processActions kr kw kwres rest
        (message :: r.1, r.2)

/-- The event callback `on_event(event, match=None, mapping=mapping)` defined
inside `start` for one mapping.  Result: the messages forwarded to
`edmp.process` in order, and the exception escaping the callback, if any. -/
def on_event (kr : Resolver) (ctx : Ctx) (mapping : Mapping)
    (event : Value) (matchRes : Value) : List Value × Option String :=
  let kw : Keywords := ⟨event, matchRes, ctx⟩
  match condPhase kr kw mapping with
  | CondOutcome.proceed => processActions kr kw mapping.keyword_resolve mapping.actions
  | CondOutcome.skip => ([], Option.none)
  | CondOutcome.raised e => ([], some e)

/- ### Registration (`start`) -/

/-- The `match_type` selection of `start`: the `if/elif` chain over
`"regex"`, `"startswith"`, `"endswith"`, `"fnmatch"`, returning the selected
kind and `mapping[match_type]`, or nothing when no kind is present. -/
def matchTypeOf (m : Mapping) : Option (String × String) :=
  match m.regex with
  | some p => some ("regex", p)
  | Option.none =>
      match m.startswith with
      | some p => some ("startswith", p)
      | Option.none =>
          match m.endswith with
          | some p => some ("endswith", p)
          | Option.none =>
              match m.fnmatch with
              | some p => some ("fnmatch", p)
              | Option.none => Option.none

/-- One registered event matcher:
`edmp.register_event_matcher(mapping[match_type], on_event, match_type=match_type)`.
`boundMapping` is the value of the `mapping=mapping` default argument of
`on_event`, evaluated at function-definition time in that loop iteration. -/
structure Registration where
  match_type : String
  pattern : String
  boundMapping : Mapping

/-- The diagnostic emitted for a mapping with no recognized pattern kind
(`log.error("No valid match type found for mapping: ...")`). -/
def noMatchTypeDiag : String := "No valid match type found for mapping"

/-- The registration loop of `start`: for each mapping, select a match type;
when none is found, emit a diagnostic and `continue`; otherwise register the
matcher with `on_event` bound to this iteration's mapping.  Result: the
registrations in order, and the emitted diagnostics. -/
def start : List Mapping → List Registration × List String
  | [] => ([], [])
  | m :: rest =>
      match matchTypeOf m with
      | Option.none =>
          let r := start rest
          (r.1, noMatchTypeDiag :: r.2)
      | some (mt, pat) =>
          let r := start rest
          (⟨mt, pat, m⟩ :: r.1, r.2)

/-- Invoking the callback of a registration on an event: Python calls
`on_event(event, match)`, and the `mapping` parameter takes its stored
default value — the mapping bound at registration time. -/
def invoke_callback (kr : Resolver) (ctx : Ctx) (r : Registration)
    (event : Value) (matchRes : Value) : List Value × Option String :=
  on_event kr ctx r.boundMapping event matchRes

/-- The mappings of a configuration that have a recognized match type. -/
def validOf (ms : List Mapping) : List Mapping :=
  ms.filter (fun m => (matchTypeOf m).isSome)

/-- The registration built for one valid mapping. -/
def regOf (m : Mapping) : Registration :=
  match matchTypeOf m with
  | some (mt, pat) => ⟨mt, pat, m⟩
  | Option.none => ⟨"", "", m⟩

/- ### Heap model of the action loop (object identity / deep copy) -/

/-- A heap of Python objects: `mem` maps references to current values,
`next` is the next fresh reference. -/
structure Heap where
  mem : Nat → Value
  next : Nat

/-- Read the object at a reference. -/
def heapGet (h : Heap) (r : Nat) : Value := h.mem r

/-- Overwrite the object at a reference (in-place mutation). -/
def heapSet (h : Heap) (r : Nat) (v : Value) : Heap :=
  ⟨fun k => if k = r then v else h.mem k, h.next⟩

/-- Allocate a fresh object. -/
def heapAlloc (h : Heap) (v : Value) : Heap × Nat :=
  (⟨fun k => if k = h.next then v else h.mem k, h.next + 1⟩, h.next)

/-- `copy.deepcopy(message)`: allocate a fresh object holding a structurally
equal value; the original reference is untouched. -/
def heap_deepcopy (h : Heap) (r : Nat) : Heap × Nat :=
  heapAlloc h (heapGet h r)

/-- Worst-case model of the external `keyword_resolve` on an object: it may
resolve the structure in place, mutating its argument, and returns the
resolved value.  `f` is the pure resolution function induced by the keyword
namespace of the firing. -/
def keyword_resolve_mut (f : Value → Value) (h : Heap) (r : Nat) :
    Heap × Value :=
  let resolved := f (heapGet h r)
  (heapSet h r resolved, resolved)

/-- The `keyword_resolve = true` action loop over the heap: the stored action
templates are references held by the rule mapping; each firing deep-copies a
template, resolves the copy in place, and forwards the resolved value to the
dispatch sink.  Result: the final heap and the forwarded messages in order. -/
def process_actions_heap (f : Value → Value) (h : Heap) :
    List Nat → Heap × List Value
  | [] => (h, [])
  | r :: rest =>
      let hc := heap_deepcopy h r
      let hr := keyword_resolve_mut f hc.1 hc.2
      let hrest := process_actions_heap f hr.1 rest
      (hrest.1, hr.2 :: hrest.2)

/- ### Helper lemmas -/

theorem regOf_boundMapping (m : Mapping) : (regOf m).boundMapping = m := by
  unfold regOf
  cases h : matchTypeOf m with
  | none => rfl
  | some p => cases p; rfl

theorem start_fst_eq (ms : List Mapping) :
    (start ms).1 = (validOf ms).map regOf := by
  induction ms with
  | nil => rfl
  | cons m rest ih =>
      cases h : matchTypeOf m with
      | none =>
          simp [start, h, validOf, List.filter_cons, ih]
      | some p =>
          cases p with
          | mk mt pat =>
              have hreg : regOf m = ⟨mt, pat, m⟩ := by simp [regOf, h]
              simp [start, h, validOf, List.filter_cons, ih, hreg]

theorem processActions_noresolve (kr : Resolver) (kw : Keywords)
    (l : List Value) : processActions kr kw false l = (l, Option.none) := by
  induction l with
  | nil => rfl
  | cons m t ih => simp [processActions, ih]

theorem processActions_append (kr : Resolver) (kw : Keywords) (b : Bool)
    (l1 l2 : List Value) (ds : List Value)
    (h : processActions kr kw b l1 = (ds, Option.none)) :
    processActions kr kw b (l1 ++ l2) =
      (ds ++ (processActions kr kw b l2).1, (processActions kr kw b l2).2) := by
  induction l1 generalizing ds with
  | nil =>
      have hds : ds = [] := by
        have := congrArg Prod.fst h
        simpa [processActions] using this.symm
      subst hds
      simp
  | cons m t ih =>
      cases hb : b with
      | false =>
          subst hb
          simp only [processActions] at h
          rw [Prod.mk.injEq] at h
          simp only [Bool.false_eq_true, if_false] at h
          obtain ⟨h1, h2⟩ := h
          subst h1
          have ihx := ih (processActions kr kw false t).1
            (Prod.ext_iff.mpr ⟨rfl, h2⟩)
          simp [processActions, ihx]
      | true =>
          subst hb
          simp only [processActions, if_true] at h
          cases hk : kr (deepcopyValue m) kw with
          | error e =>
              rw [hk] at h
              exact absurd (congrArg Prod.snd h) (by simp)
          | ok resolved =>
              rw [hk] at h
              rw [Prod.mk.injEq] at h
              obtain ⟨h1, h2⟩ := h
              subst h1
              have ihx := ih (processActions kr kw true t).1
                (Prod.ext_iff.mpr ⟨rfl, h2⟩)
              simp [processActions, hk, ihx]

theorem processActions_allok (kr : Resolver) (kw : Keywords) (b : Bool)
    (l : List Value)
    (h : ∀ a ∈ l, ∃ v, kr (deepcopyValue a) kw = Except.ok v) :
    (processActions kr kw b l).1.length = l.length ∧
      (processActions kr kw b l).2 = Option.none := by
  cases b with
  | false => simp [processActions_noresolve]
  | true =>
      induction l with
      | nil => simp [processActions]
      | cons m t ih =>
          obtain ⟨v, hv⟩ := h m (List.mem_cons_self m t)
          have ihx := ih (fun a ha => h a (List.mem_cons_of_mem m ha))
          simp [processActions, hv, ihx.1, ihx.2]

/- ### Heap lemmas -/

theorem pah_next_le (f : Value → Value) (refs : List Nat) :
    ∀ h : Heap, h.next ≤ (process_actions_heap f h refs).1.next := by
  induction refs with
  | nil => intro h; exact Nat.le_refl _
  | cons r rest ih =>
      intro h
      have step := ih (keyword_resolve_mut f (heap_deepcopy h r).1
        (heap_deepcopy h r).2).1
      simp only [process_actions_heap]
      refine Nat.le_trans ?_ step
      simp [heap_deepcopy, heapAlloc, keyword_resolve_mut, heapSet]

theorem pah_frame (f : Value → Value) (refs : List Nat) :
    ∀ (h : Heap) (rr : Nat), rr < h.next →
      heapGet (process_actions_heap f h refs).1 rr = heapGet h rr := by
  induction refs with
  | nil => intro h rr _; rfl
  | cons r rest ih =>
      intro h rr hrr
      have hne : rr ≠ h.next := Nat.ne_of_lt hrr
      have hstep :
          heapGet (keyword_resolve_mut f (heap_deepcopy h r).1
            (heap_deepcopy h r).2).1 rr = heapGet h rr := by
        simp [heap_deepcopy, heapAlloc, keyword_resolve_mut, heapSet,
          heapGet, hne]
      have hnext :
          (keyword_resolve_mut f (heap_deepcopy h r).1
            (heap_deepcopy h r).2).1.next = h.next + 1 := by
        simp [heap_deepcopy, heapAlloc, keyword_resolve_mut, heapSet]
      have := ih (keyword_resolve_mut f (heap_deepcopy h r).1
        (heap_deepcopy h r).2).1 rr (by rw [hnext]; exact Nat.lt_succ_of_lt hrr)
      simp only [process_actions_heap]
      rw [this, hstep]

theorem pah_out (f : Value → Value) (refs : List Nat) :
    ∀ h : Heap, (∀ r ∈ refs, r < h.next) →
      (process_actions_heap f h refs).2 = refs.map (fun r => f (heapGet h r)) := by
  induction refs with
  | nil => intro h _; rfl
  | cons r rest ih =>
      intro h hv
      have hr : r < h.next := hv r (List.mem_cons_self r rest)
      have hhead :
          (keyword_resolve_mut f (heap_deepcopy h r).1
            (heap_deepcopy h r).2).2 = f (heapGet h r) := by
        simp [heap_deepcopy, heapAlloc, keyword_resolve_mut, heapGet, heapSet]
      have hnext :
          (keyword_resolve_mut f (heap_deepcopy h r).1
            (heap_deepcopy h r).2).1.next = h.next + 1 := by
        simp [heap_deepcopy, heapAlloc, keyword_resolve_mut, heapSet]
      have hframe : ∀ x ∈ rest,
          heapGet (keyword_resolve_mut f (heap_deepcopy h r).1
            (heap_deepcopy h r).2).1 x = heapGet h x := by
        intro x hx
        have hxlt : x < h.next := hv x (List.mem_cons_of_mem r hx)
        simp [heap_deepcopy, heapAlloc, keyword_resolve_mut, heapSet,
          heapGet, Nat.ne_of_lt hxlt]
      have ihx := ih (keyword_resolve_mut f (heap_deepcopy h r).1
        (heap_deepcopy h r).2).1
        (by
          intro x hx
          rw [hnext]
          exact Nat.lt_succ_of_lt (hv x (List.mem_cons_of_mem r hx)))
      have hmap :
          List.map (fun x => f (heapGet (keyword_resolve_mut f
            (heap_deepcopy h r).1 (heap_deepcopy h r).2).1 x)) rest =
          List.map (fun x => f (heapGet h x)) rest :=
        List.map_congr_left (fun x hx => by rw [hframe x hx])
      simp only [process_actions_heap, ihx, hhead, hmap, List.map_cons]

/- ### Concrete fixtures -/

/-- The default mapping (all configuration keys absent). -/
def dummyMapping : Mapping := {}

/-- Default registration, used only as the `getD` fallback. -/
def dummyRegistration : Registration := ⟨"", "", dummyMapping⟩

/-- A resolver that always succeeds with `True`. -/
def krOkTrue : Resolver := fun _ _ => Except.ok (Value.bool true)

/-- A resolver that always raises. -/
def krBoom : Resolver := fun _ _ => Except.error "boom"

/-- A resolver that raises on the template `"bad"` and resolves every other
value to itself. -/
def krSel : Resolver := fun v _ =>
  match v with
  | Value.str "bad" => Except.error "rerr"
  | w => Except.ok w

/-- A startswith-rule whose single action carries its name. -/
def ruleNamed (n : String) : Mapping :=
  { startswith := some n, actions := [Value.str n] }

/-- Five rules registered in a loop. -/
def fiveRules : List Mapping :=
  [ruleNamed "r1", ruleNamed "r2", ruleNamed "r3", ruleNamed "r4", ruleNamed "r5"]

/-- A mapping with none of the recognized pattern kinds. -/
def invalidMapping : Mapping := { actions := [Value.str "z"] }

/-- A mapping with several pattern-kind keys present at once. -/
def multiM : Mapping :=
  { regex := some "r", startswith := some "s", fnmatch := some "f" }

/- ### Context-store lemmas -/

theorem ctx1_lookup (ctx : Ctx) (k : String) :
    alLookup (if alMem ctx k then ctx else alSet ctx k ([] : Dict)) k
      = some ((alLookup ctx k).getD []) := by
  by_cases hm : alMem ctx k = true
  · rw [if_pos hm]
    cases hl : alLookup ctx k with
    | none => rw [alMem_lookup_isSome, hl] at hm; simp at hm
    | some d => simp [hl]
  · rw [if_neg (by simpa using hm)]
    cases hl : alLookup ctx k with
    | none => simp [alLookup_alSet_self]
    | some d => rw [alMem_lookup_isSome, hl] at hm; simp at hm

theorem ctx1_lookup_ne (ctx : Ctx) (k k' : String) (h : k' ≠ k) :
    alLookup (if alMem ctx k then ctx else alSet ctx k ([] : Dict)) k'
      = alLookup ctx k' := by
  by_cases hm : alMem ctx k = true
  · rw [if_pos hm]
  · rw [if_neg (by simpa using hm), alLookup_alSet_ne ctx k k' _ h]

/-- Claim C5: merging with a key merges key-by-key into that key's
sub-mapping (created empty when absent), overwrites only the sub-keys present
in the update while all other existing sub-keys retain their prior values,
and returns the full store after the merge; in particular merging
`{"a": 1}` and then `{"b": 2}` under `"k"` yields `{"a": 1, "b": 2}`. -/
theorem context_merge_semantics (ctx : Ctx) (k : String) (u : Dict) :
    (context_handler ctx (some k) u).2 = (context_handler ctx (some k) u).1
    ∧ alLookup (context_handler ctx (some k) u).1 k
        = some (dictUpdate ((alLookup ctx k).getD []) u)
    ∧ (∀ k', k' ≠ k →
        alLookup (context_handler ctx (some k) u).1 k' = alLookup ctx k')
    ∧ (∀ sk, alMem u sk = false →
        alLookup (dictUpdate ((alLookup ctx k).getD []) u) sk
          = alLookup ((alLookup ctx k).getD []) sk)
    ∧ alLookup (context_handler (context_handler [] (some "k")
        [("a", Value.int 1)]).1 (some "k") [("b", Value.int 2)]).1 "k"
        = some [("a", Value.int 1), ("b", Value.int 2)] := by
  refine ⟨rfl, ?_, ?_, ?_, ?_⟩
  · show alLookup (alSet _ k _) k = _
    rw [alLookup_alSet_self, ctx1_lookup]
    rfl
  · intro k' hk'
    show alLookup (alSet _ k _) k' = _
    rw [alLookup_alSet_ne _ k k' _ hk', ctx1_lookup_ne ctx k k' hk']
  · intro sk hsk
    exact dictUpdate_lookup_notmem u sk hsk _
  · rfl

/-- Claim C5 witness: the double-merge scenario, via the theorem. -/
theorem context_merge_semantics_witness :
    alLookup (context_handler (context_handler [] (some "k")
        [("a", Value.int 1)]).1 (some "k") [("b", Value.int 2)]).1 "k"
      = some [("a", Value.int 1), ("b", Value.int 2)] :=
  (context_merge_semantics [] "k" []).2.2.2.2

/-- Claim C6: the merge operation with no key and no updates is a pure read:
it returns the full store and leaves the store unchanged. -/
theorem context_no_key_pure_read (ctx : Ctx) :
    context_handler ctx Option.none [] = (ctx, ctx) := rfl

/-- Claim C7: a mapping with none of the recognized pattern kinds is skipped
with one diagnostic and never registered, while every other rule is
registered exactly as it would be without the bad rule. -/
theorem invalid_match_type_skipped (ms1 ms2 : List Mapping) (bad : Mapping)
    (hbad : matchTypeOf bad = Option.none) :
    (start (ms1 ++ bad :: ms2)).1 = (start (ms1 ++ ms2)).1
    ∧ (start (ms1 ++ bad :: ms2)).2.length
        = (start (ms1 ++ ms2)).2.length + 1 := by
  induction ms1 with
  | nil => simp [start, hbad]
  | cons m rest ih =>
      cases h : matchTypeOf m with
      | none => simp [start, h, ih]
      | some p => cases p; simp [start, h, ih]

/-- Claim C7 witness: one invalid rule among three leaves the other two
registered, with one extra diagnostic. -/
theorem invalid_match_type_skipped_witness :
    matchTypeOf invalidMapping = Option.none
    ∧ ((start [ruleNamed "g1", invalidMapping, ruleNamed "g2"]).1
          = (start [ruleNamed "g1", ruleNamed "g2"]).1
        ∧ (start [ruleNamed "g1", invalidMapping, ruleNamed "g2"]).2.length
          = (start [ruleNamed "g1", ruleNamed "g2"]).2.length + 1) :=
  ⟨rfl, invalid_match_type_skipped [ruleNamed "g1"] [ruleNamed "g2"]
    invalidMapping rfl⟩

/-- Claim C10: when several pattern-kind keys are present, exactly one is
selected by fixed priority regex, startswith, endswith, fnmatch; the rule is
registered once under that kind and no diagnostic is emitted. -/
theorem match_type_priority_selection (m : Mapping) (p : String) :
    (m.regex = some p → matchTypeOf m = some ("regex", p))
    ∧ (m.regex = Option.none → m.startswith = some p →
        matchTypeOf m = some ("startswith", p))
    ∧ (m.regex = Option.none → m.startswith = Option.none →
        m.endswith = some p → matchTypeOf m = some ("endswith", p))
    ∧ (m.regex = Option.none → m.startswith = Option.none →
        m.endswith = Option.none → m.fnmatch = some p →
        matchTypeOf m = some ("fnmatch", p))
    ∧ (∀ mt pat, matchTypeOf m = some (mt, pat) →
        start [m] = ([Registration.mk mt pat m], [])) := by
  refine ⟨?_, ?_, ?_, ?_, ?_⟩
  · intro h; simp [matchTypeOf, h]
  · intro h1 h2; simp [matchTypeOf, h1, h2]
  · intro h1 h2 h3; simp [matchTypeOf, h1, h2, h3]
  · intro h1 h2 h3 h4; simp [matchTypeOf, h1, h2, h3, h4]
  · intro mt pat h; simp [start, h]

/-- Claim C10 witness: a mapping with regex, startswith and fnmatch all
present registers once, as a regex matcher, with no diagnostic. -/
theorem match_type_priority_selection_witness :
    matchTypeOf multiM = some ("regex", "r")
    ∧ start [multiM] = ([Registration.mk "regex" "r" multiM], []) := by
  have h := match_type_priority_selection multiM "r"
  exact ⟨h.1 rfl, h.2.2.2.2 "regex" "r" (h.1 rfl)⟩

/-- Claim C1: the callback registered for the i-th surviving mapping is
permanently bound to that mapping (via the `mapping=mapping` default
argument), so invoking it later evaluates the condition and actions of that
very mapping, never those of a mapping registered in a later iteration. -/
theorem callback_dispatches_its_own_mapping (ms : List Mapping) (i : Nat)
    (h : i < ((start ms).1).length) (kr : Resolver) (ctx : Ctx)
    (e mr : Value) :
    i < (validOf ms).length
    ∧ (((start ms).1).getD i dummyRegistration).boundMapping
        = (validOf ms).getD i dummyMapping
    ∧ invoke_callback kr ctx (((start ms).1).getD i dummyRegistration) e mr
        = on_event kr ctx ((validOf ms).getD i dummyMapping) e mr := by
  have hlen : i < (validOf ms).length := by
    rw [start_fst_eq] at h
    simpa using h
  have hreg : ((start ms).1).getD i dummyRegistration
      = regOf ((validOf ms).getD i dummyMapping) := by
    rw [start_fst_eq, List.getD_eq_getElem _ _ (by simpa using hlen),
      List.getD_eq_getElem _ _ hlen, List.getElem_map]
  refine ⟨hlen, ?_, ?_⟩
  · rw [hreg, regOf_boundMapping]
  · rw [hreg]
    unfold invoke_callback
    rw [regOf_boundMapping]

/-- Claim C1 witness: with five rules registered in a loop, the third
registration's callback fires the third rule's own action. -/
theorem callback_dispatches_its_own_mapping_witness :
    2 < (validOf fiveRules).length
    ∧ (((start fiveRules).1).getD 2 dummyRegistration).boundMapping
        = (validOf fiveRules).getD 2 dummyMapping
    ∧ invoke_callback krOkTrue [] (((start fiveRules).1).getD 2
        dummyRegistration) (Value.str "ev") Value.none
        = ([Value.str "r3"], Option.none) :=
  have h := callback_dispatches_its_own_mapping fiveRules 2 (by decide)
    krOkTrue [] (Value.str "ev") Value.none
  ⟨h.1, h.2.1, h.2.2.trans rfl⟩

/-- A rule with no condition and two plain actions. -/
def mC8 : Mapping :=
  { startswith := some "m", actions := [Value.str "a1", Value.str "a2"] }

/-- Claim C8: when the mapping has no condition entry, a matching event
always reaches the action-dispatch phase: the condition check is bypassed
(the callback behaves as the plain action loop), with `keyword_resolve`
off every action is forwarded, and whenever every action resolves, as many
messages are dispatched as there are actions. -/
theorem absent_condition_always_dispatches (kr : Resolver) (ctx : Ctx)
    (mapping : Mapping) (e mr : Value)
    (h : mapping.condition = Value.none) :
    on_event kr ctx mapping e mr
        = processActions kr ⟨e, mr, ctx⟩ mapping.keyword_resolve
            mapping.actions
    ∧ (mapping.keyword_resolve = false →
        on_event kr ctx mapping e mr = (mapping.actions, Option.none))
    ∧ ((∀ a ∈ mapping.actions,
          ∃ v, kr (deepcopyValue a) ⟨e, mr, ctx⟩ = Except.ok v) →
        (on_event kr ctx mapping e mr).1.length = mapping.actions.length
        ∧ (on_event kr ctx mapping e mr).2 = Option.none) := by
  have hc : condPhase kr ⟨e, mr, ctx⟩ mapping = CondOutcome.proceed := by
    simp [condPhase, h, truthy]
  have h0 : on_event kr ctx mapping e mr
      = processActions kr ⟨e, mr, ctx⟩ mapping.keyword_resolve
          mapping.actions := by
    simp [on_event, hc]
  refine ⟨h0, ?_, ?_⟩
  · intro hres
    rw [h0, hres, processActions_noresolve]
  · intro hall
    rw [h0]
    exact processActions_allok kr ⟨e, mr, ctx⟩ mapping.keyword_resolve
      mapping.actions hall

/-- Claim C8 witness: a condition-free rule with two actions dispatches both
on a matching event. -/
theorem absent_condition_always_dispatches_witness :
    mC8.condition = Value.none
    ∧ on_event krOkTrue [] mC8 (Value.str "e") Value.none
        = (mC8.actions, Option.none) :=
  ⟨rfl, (absent_condition_always_dispatches krOkTrue [] mC8 (Value.str "e")
    Value.none rfl).2.1 rfl⟩

/-- A rule with keyword resolution off and two actions. -/
def mC9 : Mapping :=
  { endswith := some "x", actions := [Value.str "b1", Value.str "b2"] }

/-- Claim C9: with `keyword_resolve` absent or false each action message is
forwarded to the dispatch sink exactly as configured (no substitution, no
modification), in declared order. -/
theorem no_resolve_passthrough_in_order (kr : Resolver) (ctx : Ctx)
    (mapping : Mapping) (e mr : Value)
    (hres : mapping.keyword_resolve = false) :
    processActions kr ⟨e, mr, ctx⟩ mapping.keyword_resolve mapping.actions
        = (mapping.actions, Option.none)
    ∧ (condPhase kr ⟨e, mr, ctx⟩ mapping = CondOutcome.proceed →
        on_event kr ctx mapping e mr = (mapping.actions, Option.none)) := by
  have h1 : processActions kr ⟨e, mr, ctx⟩ mapping.keyword_resolve
      mapping.actions = (mapping.actions, Option.none) := by
    rw [hres, processActions_noresolve]
  refine ⟨h1, ?_⟩
  intro hc
  simp [on_event, hc, h1]

/-- Claim C9 witness: a no-resolve rule forwards its two actions verbatim
and in order, whatever the resolver would do. -/
theorem no_resolve_passthrough_in_order_witness :
    mC9.keyword_resolve = false
    ∧ on_event krBoom [] mC9 (Value.str "e") Value.none
        = (mC9.actions, Option.none) :=
  have h := no_resolve_passthrough_in_order krBoom [] mC9 (Value.str "e")
    Value.none rfl
  ⟨rfl, h.2 rfl⟩

/-- A rule with a (truthy) condition and one action. -/
def mC2 : Mapping :=
  { regex := some "^x", condition := Value.str "cond",
    actions := [Value.str "a"] }

/-- Claim C2 counterexample: when evaluating the condition raises, the
exception escapes the event callback (the result carries the error), so the
error is not treated like a condition that evaluated false (which returns
with no error). -/
theorem condition_error_escapes_callback_cex :
    (on_event krBoom [] mC2 (Value.str "e") Value.none).2 ≠ Option.none
    ∧ on_event krBoom [] mC2 (Value.str "e") Value.none
        = ([], some "boom") := by
  have h : on_event krBoom [] mC2 (Value.str "e") Value.none
      = ([], some "boom") := rfl
  exact ⟨by rw [h]; simp, h⟩

/-- Claim C2 as amended: when evaluating the condition through the resolver
raises an error, the rule's actions are all skipped, but the exception
propagates out of the event callback to its caller — unlike a condition
that evaluated false. -/
theorem condition_error_skips_actions_but_raises (kr : Resolver) (ctx : Ctx)
    (mapping : Mapping) (e mr : Value) (err : String)
    (hc : truthy mapping.condition = true)
    (he : kr mapping.condition ⟨e, mr, ctx⟩ = Except.error err) :
    on_event kr ctx mapping e mr = ([], some err) := by
  simp [on_event, condPhase, hc, he]

/-- Claim C2 amended witness: a raising resolver on a conditioned rule
skips the action and surfaces the error. -/
theorem condition_error_skips_actions_but_raises_witness :
    truthy mC2.condition = true
    ∧ krBoom mC2.condition ⟨Value.str "e", Value.none, []⟩
        = Except.error "boom"
    ∧ on_event krBoom [] mC2 (Value.str "e") Value.none
        = ([], some "boom") :=
  ⟨by decide, rfl, condition_error_skips_actions_but_raises krBoom [] mC2
    (Value.str "e") Value.none "boom" (by decide) rfl⟩

/-- A keyword-resolving rule whose first action fails to resolve and whose
second would resolve fine. -/
def mC3 : Mapping :=
  { fnmatch := some "*", keyword_resolve := true,
    actions := [Value.str "bad", Value.str "good"] }

/-- Claim C3 counterexample: the second action of `mC3` would resolve
successfully, yet after the first action's resolution error nothing is
dispatched and the error escapes — the sibling action is not attempted. -/
theorem resolve_error_blocks_siblings_cex :
    on_event krSel [] mC3 (Value.str "e") Value.none = ([], some "rerr")
    ∧ krSel (deepcopyValue (Value.str "good"))
        ⟨Value.str "e", Value.none, []⟩ = Except.ok (Value.str "good") :=
  ⟨rfl, rfl⟩

/-- Claim C3 as amended: when resolving one action template fails, that
action is not dispatched and the actions already dispatched before it stand,
but the remaining sibling actions are not attempted: the exception
propagates out of the event callback. -/
theorem resolve_error_stops_remaining_actions (kr : Resolver) (ctx : Ctx)
    (mapping : Mapping) (e mr : Value) (pre post : List Value) (bad : Value)
    (ds : List Value) (err : String)
    (hres : mapping.keyword_resolve = true)
    (hc : condPhase kr ⟨e, mr, ctx⟩ mapping = CondOutcome.proceed)
    (hacts : mapping.actions = pre ++ bad :: post)
    (hpre : processActions kr ⟨e, mr, ctx⟩ true pre = (ds, Option.none))
    (hbad : kr (deepcopyValue bad) ⟨e, mr, ctx⟩ = Except.error err) :
    on_event kr ctx mapping e mr = (ds, some err) := by
  have happ := processActions_append kr ⟨e, mr, ctx⟩ true pre (bad :: post)
    ds hpre
  have hbadpa : processActions kr ⟨e, mr, ctx⟩ true (bad :: post)
      = ([], some err) := by
    simp [processActions, hbad]
  simp [on_event, hc, hres, hacts, happ, hbadpa]

/-- A keyword-resolving rule with a good, a failing and another good
action. -/
def mC3w : Mapping :=
  { fnmatch := some "*", keyword_resolve := true,
    actions := [Value.str "g1", Value.str "bad", Value.str "g2"] }

/-- Claim C3 amended witness: with actions good, bad, good, only the first
is dispatched and the resolution error escapes. -/
theorem resolve_error_stops_remaining_actions_witness :
    processActions krSel ⟨Value.str "e", Value.none, []⟩ true [Value.str "g1"]
        = ([Value.str "g1"], Option.none)
    ∧ krSel (deepcopyValue (Value.str "bad"))
        ⟨Value.str "e", Value.none, []⟩ = Except.error "rerr"
    ∧ on_event krSel [] mC3w (Value.str "e") Value.none
        = ([Value.str "g1"], some "rerr") :=
  ⟨rfl, rfl, resolve_error_stops_remaining_actions krSel [] mC3w
    (Value.str "e") Value.none [Value.str "g1"] [Value.str "g2"]
    (Value.str "bad") [Value.str "g1"] "rerr" rfl rfl rfl rfl rfl⟩

/-- Claim C4: with `keyword_resolve = true` each firing resolves a deep copy
of the stored action template, so the templates held by the rule are never
mutated: after a firing every stored reference still holds its original
value, each firing's dispatched messages are the resolution of the original
template contents, and a second firing (with a different event, hence a
different resolution function) again starts from the original contents. -/
theorem deepcopy_preserves_stored_templates (f g : Value → Value) (h : Heap)
    (refs : List Nat) (hv : ∀ r ∈ refs, r < h.next) :
    (∀ rr, rr < h.next →
        heapGet (process_actions_heap f h refs).1 rr = heapGet h rr)
    ∧ (process_actions_heap f h refs).2 = refs.map (fun r => f (heapGet h r))
    ∧ (process_actions_heap g (process_actions_heap f h refs).1 refs).2
        = refs.map (fun r => g (heapGet h r)) := by
  refine ⟨fun rr hrr => pah_frame f refs h rr hrr, pah_out f refs h hv, ?_⟩
  have hnext := pah_next_le f refs h
  have hv2 : ∀ r ∈ refs, r < (process_actions_heap f h refs).1.next :=
    fun r hr => Nat.lt_of_lt_of_le (hv r hr) hnext
  rw [pah_out g refs _ hv2]
  exact List.map_congr_left (fun r hr => by rw [pah_frame f refs h r (hv r hr)])

/-- A heap holding one stored template at reference 0. -/
def hW : Heap := ⟨fun k => if k = 0 then Value.str "tmpl" else Value.none, 1⟩

/-- Resolution function induced by a first event. -/
def fW : Value → Value := fun _ => Value.str "res1"

/-- Resolution function induced by a second, different event. -/
def gW : Value → Value := fun _ => Value.str "res2"

/-- Claim C4 witness: after firing the rule once, the stored template still
holds its original content, and a second firing resolves from it. -/
theorem deepcopy_preserves_stored_templates_witness :
    (∀ r ∈ ([0] : List Nat), r < hW.next)
    ∧ heapGet (process_actions_heap fW hW [0]).1 0 = Value.str "tmpl"
    ∧ (process_actions_heap gW (process_actions_heap fW hW [0]).1 [0]).2
        = [Value.str "res2"] := by
  have hv : ∀ r ∈ ([0] : List Nat), r < hW.next := by
    intro r hr
    simp at hr
    subst hr
    decide
  have h := deepcopy_preserves_stored_templates fW gW hW [0] hv
  refine ⟨hv, ?_, ?_⟩
  · rw [h.1 0 (hv 0 (by simp))]
    rfl
  · rw [h.2.2]
    rfl

end EventReactor
